import Mathlib

/-!
Verification of the green-screen removal program (src/main.py) against its
natural-language specification.

Shallow embedding conventions:
* Pixel channel values coming out of PIL images are 8-bit integers, modelled
  as `ℕ` (all values stay in `[0, 255]`, so no wraparound occurs).
* `float` arithmetic inside `colorclose` and the mask expressions is
  idealized as exact real arithmetic (`ℝ`); `numpy.uint8` casts of the
  nonnegative float arrays are modelled as `Int.floor` followed by `toNat`
  (a C float-to-unsigned cast truncates toward zero, which on nonnegative
  values is the floor).
* The RGB→YCbCr and YCbCr→RGB conversions are performed by the PIL library
  (out of scope per the spec, "treated as an external collaborator"); they
  are abstracted as function parameters `rc` / `conv`.
* The PIL `Image.paste(im, mask)` call with an 8-bit mask blends per channel with
  the fixed-point macro `MULDIV255(a, b) = ((t + (t >>> 8)) >>> 8` where
  `t = a*b + 128`; this is modelled exactly by `muldiv255` below.
* `ImageChops.subtract` with default scale/offset clips each channel at 0,
  which on `ℕ` is truncated subtraction.
-/

/-- Chroma-plane Euclidean distance, `math.sqrt((Cb_key - Cb_p)**2 + (Cr_key - Cr_p)**2)`
(src/main.py line 23, the variable `temp`). -/
noncomputable def chromaDist (Cb_p Cr_p Cb_key Cr_key : ℝ) : ℝ :=
  Real.sqrt ((Cb_key - Cb_p) ^ 2 + (Cr_key - Cr_p) ^ 2)

/-- Two-threshold ramp, the value `z` of src/main.py lines 24-29:
0 below `tola`, linear interpolation on `[tola, tolb)`, 1 from `tolb` on. -/
noncomputable def rampZ (temp tola tolb : ℝ) : ℝ :=
  if temp < tola then 0
  else if temp < tolb then (temp - tola) / (tolb - tola)
  else 1

/-- The classifier `colorclose` of src/main.py lines 8-30: returns `255.0 * z`
where `z` is the ramp applied to the chroma distance. -/
noncomputable def colorclose (Cb_p Cr_p Cb_key Cr_key tola tolb : ℝ) : ℝ :=
  255 * rampZ (chromaDist Cb_p Cr_p Cb_key Cr_key) tola tolb

/-- One pixel of the YCbCr-converted frame (output of `Image.convert` to YCbCr). -/
structure YCbCr where
  y : ℕ
  cb : ℕ
  cr : ℕ
deriving DecidableEq

/-- One RGB pixel (result of the library YCbCr→RGB conversion). -/
structure RGB where
  r : ℕ
  g : ℕ
  b : ℕ
deriving DecidableEq

/-- One RGBA pixel of a 4-channel image. -/
structure RGBA where
  r : ℕ
  g : ℕ
  b : ℕ
  a : ℕ
deriving DecidableEq

/-- A YCbCr frame, addressed as `getpixel((x, y))`; dimensions are immaterial
to the per-pixel claims, so the frame is just its pixel function. -/
structure Frame where
  px : ℕ → ℕ → YCbCr

/-- Key-color resolution, src/main.py lines 49-50: if `keyColor is None`,
sample `inDataFG.getpixel((1, 1))` on the chroma-converted frame. -/
def resolveKey (f : Frame) (keyColor : Option YCbCr) : YCbCr :=
  keyColor.getD (f.px 1 1)

/-- Tolerance resolution, src/main.py lines 51-52: if `tolerance is None`,
use `[30, 120]`. -/
noncomputable def resolveTol (tolerance : Option (ℝ × ℝ)) : ℝ × ℝ :=
  tolerance.getD (30, 120)

/-- The alpha mask array (src/main.py line 62), per pixel:
`colorclose(Cb_pixel, Cr_pixel, Cb_key, Cr_key, tola, tolb)` as a float. -/
noncomputable def alphaMaskR (f : Frame) (key : YCbCr) (tol : ℝ × ℝ) (x y : ℕ) : ℝ :=
  colorclose ((f.px x y).cb : ℝ) ((f.px x y).cr : ℝ) (key.cb : ℝ) (key.cr : ℝ) tol.1 tol.2

/-- The inverted mask float array of src/main.py line 67:
`255 - 255 * (alphaMask / 255)`. -/
noncomputable def invertMaskR (f : Frame) (key : YCbCr) (tol : ℝ × ℝ) (x y : ℕ) : ℝ :=
  255 - 255 * (alphaMaskR f key tol x y / 255)

/-- Model of `numpy.uint8` applied to a nonnegative in-range float: truncation
toward zero, i.e. the floor. -/
noncomputable def u8ofReal (r : ℝ) : ℕ :=
  (⌊r⌋).toNat

/-- The 8-bit alpha-mask image `imMask = Image.fromarray(numpy.uint8(alphaMask))`
(src/main.py line 64). -/
noncomputable def alphaU8 (f : Frame) (key : YCbCr) (tol : ℝ × ℝ) (x y : ℕ) : ℕ :=
  u8ofReal (alphaMaskR f key tol x y)

/-- The 8-bit inverted-mask image `invertMask` (src/main.py line 67). -/
noncomputable def invertU8 (f : Frame) (key : YCbCr) (tol : ℝ × ℝ) (x y : ℕ) : ℕ :=
  u8ofReal (invertMaskR f key tol x y)

/-- Pillow fixed-point `MULDIV255` macro used by `Image.paste` blending:
`t = a*b + 128; (t + (t >>> 8)) >>> 8`, i.e. a correctly rounded `a*b/255`. -/
def muldiv255 (a b : ℕ) : ℕ :=
  (a * b + 128 + (a * b + 128) / 256) / 256

/-- Pillow per-channel paste blend with an 8-bit mask `m`:
`BLEND(m, dst, src) = MULDIV255(dst, 255-m) + MULDIV255(src, m)`. -/
def pasteBlend (m dst src : ℕ) : ℕ :=
  muldiv255 dst (255 - m) + muldiv255 src m

/-- The spill ("color mask") layer after `colorMask.paste(allgreen, invertMask)`
(src/main.py lines 70-74): the flat key-color layer `allgreen` — converted by
the library to RGBA, which sets alpha 255 — blended over the fully transparent
black `colorMask = (0, 0, 0, 0)` with the inverted mask as stencil. -/
noncomputable def spillPx (conv : YCbCr → RGB) (f : Frame) (key : YCbCr) (tol : ℝ × ℝ)
    (x y : ℕ) : RGBA :=
  let m := invertU8 f key tol x y
  let kc := conv key
  ⟨pasteBlend m 0 kc.r, pasteBlend m 0 kc.g, pasteBlend m 0 kc.b, pasteBlend m 0 255⟩

/-- The flat key-color layer as it participates in the paste: `allgreen`
converted to RGBA (alpha 255). -/
def allgreenRGBA (conv : YCbCr → RGB) (key : YCbCr) : RGBA :=
  ⟨(conv key).r, (conv key).g, (conv key).b, 255⟩

/-- The original frame converted to RGBA, `inDataFG.convert` to RGBA
(src/main.py line 77): library conversion of the YCbCr pixel plus alpha 255. -/
def origRGBA (conv : YCbCr → RGB) (f : Frame) (x y : ℕ) : RGBA :=
  ⟨(conv (f.px x y)).r, (conv (f.px x y)).g, (conv (f.px x y)).b, 255⟩

/-- `ImageChops.subtract` on one RGBA pixel: channel-wise subtraction clipped
at 0 (truncated `ℕ` subtraction; the upper clip at 255 is vacuous since the
minuend is at most 255). -/
def subPx (p q : RGBA) : RGBA :=
  ⟨p.r - q.r, p.g - q.g, p.b - q.b, p.a - q.a⟩

/-- The composited output pixel, `cleaned = ImageChops.subtract(inDataFG, colorMask)`
(src/main.py line 80). -/
noncomputable def cleanedPx (conv : YCbCr → RGB) (f : Frame) (key : YCbCr) (tol : ℝ × ℝ)
    (x y : ℕ) : RGBA :=
  subPx (origRGBA conv f x y) (spillPx conv f key tol x y)

/-- The Frame Compositor `remove_green_screen` (src/main.py lines 32-82) at one
output pixel, with the optional-argument resolution of lines 49-52. -/
noncomputable def remove_green_screen (conv : YCbCr → RGB) (f : Frame)
    (keyColor : Option YCbCr) (tolerance : Option (ℝ × ℝ)) (x y : ℕ) : RGBA :=
  cleanedPx conv f (resolveKey f keyColor) (resolveTol tolerance) x y

/-- A raw frame as handed over by the video decoder: a `height × width × channels`
array, addressed `ch row col channel`. The expected RGB layout has 3 channels. -/
structure RawFrame where
  height : ℕ
  width : ℕ
  channels : ℕ
  ch : ℕ → ℕ → ℕ → ℕ

/-- Conversion of a raw RGB frame to the YCbCr frame
(`Image.fromarray` followed by `convert` to YCbCr, src/main.py line 46); `rc` is
the library per-pixel RGB→YCbCr conversion. `getpixel((x, y))` reads row `y`,
column `x` of the array. -/
def toFrame (rc : ℕ → ℕ → ℕ → YCbCr) (r : RawFrame) : Frame :=
  ⟨fun x y => rc (r.ch y x 0) (r.ch y x 1) (r.ch y x 2)⟩

/-- The composited image produced for one raw frame by
`remove_green_screen(frame, idx)` — both optional arguments left at their
defaults, as the Batch Driver calls it (src/main.py line 104). -/
noncomputable def composited (rc : ℕ → ℕ → ℕ → YCbCr) (conv : YCbCr → RGB)
    (r : RawFrame) : ℕ → ℕ → RGBA :=
  fun x y => remove_green_screen conv (toFrame rc r) none none x y

/-- Per-frame processing as seen from the driver loop. Whether processing a
given raw frame raises is decided entirely at the library boundary
(`Image.fromarray`, `convert`, `getpixel`): for instance a 4-channel uint8
frame does NOT raise (`fromarray` yields RGBA and the YCbCr conversion
succeeds through RGB), while a 5-channel array raises TypeError in
`fromarray`, and a frame smaller than 2x2 raises IndexError at the default
key sampling `getpixel((1, 1))`. The parameter `lib` abstracts this
library behavior, like `rc` and `conv` abstract the color conversions:
`lib r = some e` means processing frame `r` raises an exception with message
`e`; `lib r = none` means the composited image is produced. -/
noncomputable def processRaw (lib : RawFrame → Option String) (rc : ℕ → ℕ → ℕ → YCbCr)
    (conv : YCbCr → RGB) (r : RawFrame) : Except String (ℕ → ℕ → RGBA) :=
  match lib r with
  | some e => .error e
  | none => .ok (composited rc conv r)

/-- The driver loop of src/main.py lines 99-110 over an already-enumerated
frame list: a frame is processed when `process_all_frames or idx % 5 == 0`;
saved outputs accumulate in order; the loop contains no `try/except`, so an
uncaught per-frame exception stops it — the result is the list of images
emitted before the exception paired with the index of the raising frame
(`none` when the loop completes). -/
noncomputable def runBatch (lib : RawFrame → Option String) (rc : ℕ → ℕ → ℕ → YCbCr)
    (conv : YCbCr → RGB) :
    List (ℕ × RawFrame) → Bool → List (ℕ × (ℕ → ℕ → RGBA)) × Option (ℕ × String)
  | [], _ => ([], none)
  | (i, r) :: rest, flag =>
    if flag || i % 5 == 0 then
      match processRaw lib rc conv r with
      | .error e => ([], some (i, e))
      | .ok out =>
        let t := runBatch lib rc conv rest flag
        ((i, out) :: t.1, t.2)
    else runBatch lib rc conv rest flag

/-- The Batch Driver `remove_green_screen_from_video` (src/main.py lines 84-113):
enumerate the decoded frames from index 0 and run the loop. -/
noncomputable def remove_green_screen_from_video (lib : RawFrame → Option String)
    (rc : ℕ → ℕ → ℕ → YCbCr) (conv : YCbCr → RGB) (frames : List RawFrame)
    (process_all_frames : Bool) :
    List (ℕ × (ℕ → ℕ → RGBA)) × Option (ℕ × String) :=
  runBatch lib rc conv frames.enum process_all_frames

/-! Concrete instances used by witnesses and counterexamples. -/

/-- Degenerate YCbCr→RGB conversion used for concrete witnesses (the claims
under test do not depend on the conversion values). -/
def conv0 : YCbCr → RGB := fun _ => ⟨0, 0, 0⟩

/-- Degenerate RGB→YCbCr conversion used for concrete witnesses. -/
def rc0 : ℕ → ℕ → ℕ → YCbCr := fun _ _ _ => ⟨0, 0, 0⟩

/-- A sample key color (the end-to-end example of the spec, `(Y=150, Cb=128, Cr=128)`). -/
def key0 : YCbCr := ⟨150, 128, 128⟩

/-- A frame that is the key color everywhere. -/
def fKey : Frame := ⟨fun _ _ => key0⟩

/-- A frame whose pixels sit at chroma distance 5 from `key0`
(`(Cb, Cr) = (131, 132)` against `(128, 128)`). -/
def f5 : Frame := ⟨fun _ _ => ⟨0, 131, 132⟩⟩

/-- A wellformed 2x2 3-channel raw frame: large enough for the default key
sampling at `getpixel((1, 1))`, so the program processes it without raising. -/
def rawGood : RawFrame := ⟨2, 2, 3, fun _ _ _ => 0⟩

/-- A malformed 2x2 raw frame with 5 channels: `Image.fromarray` has no
typemap entry for a 5-channel uint8 array, so processing it raises TypeError
in the real program. -/
def rawBad5 : RawFrame := ⟨2, 2, 5, fun _ _ _ => 0⟩

/-- Concrete library-raising behavior used by the batch witnesses and
counterexample: a 5-channel frame raises TypeError in `Image.fromarray`,
other frames are accepted. This matches the real library on the frames used
here (`rawGood`, a 2x2 RGB frame, is processed without raising; `rawBad5`
raises). -/
def libRaises5 : RawFrame → Option String :=
  fun r => if r.channels == 5 then some "TypeError: Cannot handle this data type" else none

/-- A 12-frame input for the decimation scenario. -/
def frames12 : List RawFrame := List.replicate 12 rawGood

/-! Helper lemmas: the ramp and the classifier. -/

theorem rampZ_nonneg (temp tola tolb : ℝ) : 0 ≤ rampZ temp tola tolb := by
  unfold rampZ
  split_ifs with h1 h2
  · exact le_refl 0
  · have ha : tola ≤ temp := le_of_not_lt h1
    exact div_nonneg (by linarith) (by linarith)
  · norm_num

theorem rampZ_le_one (temp tola tolb : ℝ) : rampZ temp tola tolb ≤ 1 := by
  unfold rampZ
  split_ifs with h1 h2
  · norm_num
  · have ha : tola ≤ temp := le_of_not_lt h1
    have hd : 0 < tolb - tola := by linarith
    rw [div_le_one hd]
    linarith
  · exact le_refl 1

theorem rampZ_mono (tola tolb : ℝ) {d1 d2 : ℝ} (h : d1 ≤ d2) :
    rampZ d1 tola tolb ≤ rampZ d2 tola tolb := by
  rcases lt_or_le d1 tola with h1 | h1
  · have e1 : rampZ d1 tola tolb = 0 := by
      unfold rampZ
      rw [if_pos h1]
    rw [e1]
    exact rampZ_nonneg _ _ _
  · rcases lt_or_le d2 tolb with h4 | h4
    · have hd2a : ¬ d2 < tola := not_lt.mpr (le_trans h1 h)
      have h2 : d1 < tolb := lt_of_le_of_lt h h4
      have e1 : rampZ d1 tola tolb = (d1 - tola) / (tolb - tola) := by
        unfold rampZ
        rw [if_neg (not_lt.mpr h1), if_pos h2]
      have e2 : rampZ d2 tola tolb = (d2 - tola) / (tolb - tola) := by
        unfold rampZ
        rw [if_neg hd2a, if_pos h4]
      rw [e1, e2]
      have hpos : 0 < tolb - tola := by linarith
      exact (div_le_div_iff_of_pos_right hpos).mpr (by linarith)
    · have hd2a : ¬ d2 < tola := not_lt.mpr (le_trans h1 h)
      have e2 : rampZ d2 tola tolb = 1 := by
        unfold rampZ
        rw [if_neg hd2a, if_neg (not_lt.mpr h4)]
      rw [e2]
      exact rampZ_le_one _ _ _

theorem rampZ_degenerate {tola tolb : ℝ} (h : tolb ≤ tola) (temp : ℝ) :
    rampZ temp tola tolb = if temp < tola then 0 else 1 := by
  unfold rampZ
  split_ifs with h1 h2
  · rfl
  · exact absurd (lt_of_lt_of_le h2 h) h1
  · rfl

theorem colorclose_nonneg (a b c d e f : ℝ) : 0 ≤ colorclose a b c d e f :=
  mul_nonneg (by norm_num) (rampZ_nonneg _ _ _)

theorem colorclose_le_255 (a b c d e f : ℝ) : colorclose a b c d e f ≤ 255 := by
  have h := rampZ_le_one (chromaDist a b c d) e f
  have h255 : (0:ℝ) ≤ 255 := by norm_num
  calc colorclose a b c d e f = 255 * rampZ (chromaDist a b c d) e f := rfl
    _ ≤ 255 * 1 := mul_le_mul_of_nonneg_left h h255
    _ = 255 := by norm_num

theorem chromaDist_nonneg (a b c d : ℝ) : 0 ≤ chromaDist a b c d :=
  Real.sqrt_nonneg _

theorem chromaDist_self (a b : ℝ) : chromaDist a b a b = 0 := by
  unfold chromaDist
  rw [sub_self, sub_self]
  simp

theorem chromaDist_concrete : chromaDist 131 132 128 128 = 5 := by
  unfold chromaDist
  rw [show ((128:ℝ) - 131) ^ 2 + ((128:ℝ) - 132) ^ 2 = 5 ^ 2 by norm_num]
  exact Real.sqrt_sq (by norm_num)

/-! Helper lemmas: fixed-point blending and uint8 casts. -/

theorem muldiv255_zero_left (b : ℕ) : muldiv255 0 b = 0 := by
  simp [muldiv255]

theorem muldiv255_zero_right (a : ℕ) : muldiv255 a 0 = 0 := by
  simp [muldiv255]

theorem muldiv255_255_right {a : ℕ} (h : a ≤ 255) : muldiv255 a 255 = a := by
  unfold muldiv255
  omega

theorem muldiv255_255_left {b : ℕ} (h : b ≤ 255) : muldiv255 255 b = b := by
  unfold muldiv255
  omega

theorem u8ofReal_le_255 {r : ℝ} (h : r ≤ 255) : u8ofReal r ≤ 255 := by
  unfold u8ofReal
  have hf : ⌊r⌋ ≤ 255 := by
    by_contra hc
    push_neg at hc
    have h256 : ((256:ℤ):ℝ) ≤ r := Int.le_floor.mp (by omega)
    push_cast at h256
    linarith
  omega

theorem u8ofReal_natCast (n : ℕ) : u8ofReal (n : ℝ) = n := by
  unfold u8ofReal
  rw [Int.floor_natCast]
  exact Int.toNat_natCast n

theorem floor_255_sub (a : ℝ) : ⌊(255:ℝ) - a⌋ = 255 - ⌈a⌉ := by
  rw [show (255:ℝ) - a = -a + ((255:ℤ):ℝ) by push_cast; ring, Int.floor_add_int, Int.floor_neg]
  ring

/-! Helper lemmas: the mask arrays and the composited alpha channel. -/

theorem invertMaskR_eq_sub (f : Frame) (key : YCbCr) (tol : ℝ × ℝ) (x y : ℕ) :
    invertMaskR f key tol x y = 255 - alphaMaskR f key tol x y := by
  unfold invertMaskR
  have h255 : (255:ℝ) ≠ 0 := by norm_num
  field_simp

theorem alphaMaskR_nonneg (f : Frame) (key : YCbCr) (tol : ℝ × ℝ) (x y : ℕ) :
    0 ≤ alphaMaskR f key tol x y :=
  colorclose_nonneg _ _ _ _ _ _

theorem alphaMaskR_le_255 (f : Frame) (key : YCbCr) (tol : ℝ × ℝ) (x y : ℕ) :
    alphaMaskR f key tol x y ≤ 255 :=
  colorclose_le_255 _ _ _ _ _ _

theorem invertU8_le_255 (f : Frame) (key : YCbCr) (tol : ℝ × ℝ) (x y : ℕ) :
    invertU8 f key tol x y ≤ 255 := by
  unfold invertU8
  apply u8ofReal_le_255
  rw [invertMaskR_eq_sub]
  have := alphaMaskR_nonneg f key tol x y
  linarith

theorem spillPx_alpha (conv : YCbCr → RGB) (f : Frame) (key : YCbCr) (tol : ℝ × ℝ) (x y : ℕ) :
    (spillPx conv f key tol x y).a = invertU8 f key tol x y := by
  have hm := invertU8_le_255 f key tol x y
  simp only [spillPx, pasteBlend]
  rw [muldiv255_zero_left, muldiv255_255_left hm, Nat.zero_add]

theorem cleanedPx_alpha (conv : YCbCr → RGB) (f : Frame) (key : YCbCr) (tol : ℝ × ℝ) (x y : ℕ) :
    (cleanedPx conv f key tol x y).a = 255 - invertU8 f key tol x y := by
  simp only [cleanedPx, subPx, origRGBA]
  rw [spillPx_alpha]

theorem invertU8_eq (f : Frame) (key : YCbCr) (tol : ℝ × ℝ) (x y : ℕ) :
    invertU8 f key tol x y = (255 - ⌈alphaMaskR f key tol x y⌉).toNat := by
  unfold invertU8 u8ofReal
  rw [invertMaskR_eq_sub, floor_255_sub]

theorem cleanedPx_alpha_eq_ceil (conv : YCbCr → RGB) (f : Frame) (key : YCbCr) (tol : ℝ × ℝ)
    (x y : ℕ) : ((cleanedPx conv f key tol x y).a : ℤ) = ⌈alphaMaskR f key tol x y⌉ := by
  have h0 : 0 ≤ alphaMaskR f key tol x y := alphaMaskR_nonneg f key tol x y
  have h255 : alphaMaskR f key tol x y ≤ 255 := alphaMaskR_le_255 f key tol x y
  have hc0 : 0 ≤ ⌈alphaMaskR f key tol x y⌉ := Int.ceil_nonneg h0
  have hc255 : ⌈alphaMaskR f key tol x y⌉ ≤ 255 := by
    apply Int.ceil_le.mpr
    push_cast
    exact h255
  rw [cleanedPx_alpha, invertU8_eq]
  omega

/-! Helper lemmas: the batch driver loop. -/

theorem takeWhile_all {α : Type} {p : α → Bool} :
    ∀ {l : List α}, (∀ a ∈ l, p a = true) → l.takeWhile p = l
  | [], _ => rfl
  | a :: l, h => by
    rw [List.takeWhile_cons_of_pos (h a (List.mem_cons_self a l))]
    rw [takeWhile_all fun b hb => h b (List.mem_cons_of_mem a hb)]

theorem dropWhile_all {α : Type} {p : α → Bool} :
    ∀ {l : List α}, (∀ a ∈ l, p a = true) → l.dropWhile p = []
  | [], _ => rfl
  | a :: l, h => by
    rw [List.dropWhile_cons_of_pos (h a (List.mem_cons_self a l))]
    exact dropWhile_all fun b hb => h b (List.mem_cons_of_mem a hb)

theorem map_fst_filter_fst {β : Type} (q : ℕ → Bool) :
    ∀ (l : List (ℕ × β)),
      (l.filter fun p => q p.1).map Prod.fst = (l.map Prod.fst).filter q
  | [] => rfl
  | a :: l => by
    by_cases hq : q a.1 = true
    · simp [List.filter_cons, hq, map_fst_filter_fst q l]
    · simp [List.filter_cons, hq, map_fst_filter_fst q l]

theorem snd_mem_of_mem_enumFrom {α : Type} :
    ∀ {l : List α} {n : ℕ} {p : ℕ × α}, p ∈ l.enumFrom n → p.2 ∈ l
  | [], _, _, h => absurd h (List.not_mem_nil _)
  | a :: l, n, p, h => by
    rw [List.enumFrom_cons] at h
    rcases List.mem_cons.mp h with h | h
    · rw [h]
      exact List.mem_cons_self a l
    · exact List.mem_cons_of_mem a (snd_mem_of_mem_enumFrom h)

/-- Closed form of the driver loop: the emitted images are the selected frames
up to the first selected frame whose processing raises, and the uncaught
exception of the loop (if any) carries the index and the message of that first
raising selected frame. -/
theorem runBatch_eq (lib : RawFrame → Option String) (rc : ℕ → ℕ → ℕ → YCbCr)
    (conv : YCbCr → RGB) (l : List (ℕ × RawFrame)) (flag : Bool) :
    runBatch lib rc conv l flag =
      (((l.filter fun p => flag || p.1 % 5 == 0).takeWhile fun p => (lib p.2).isNone).map
          (fun p => (p.1, composited rc conv p.2)),
       ((l.filter fun p => flag || p.1 % 5 == 0).dropWhile fun p => (lib p.2).isNone).head?.map
          (fun p => (p.1, (lib p.2).getD ""))) := by
  induction l with
  | nil => rfl
  | cons hd tl ih =>
    obtain ⟨i, r⟩ := hd
    by_cases hsel : (flag || i % 5 == 0) = true
    · cases hlib : lib r with
      | none =>
        simp [runBatch, processRaw, List.filter_cons, List.takeWhile_cons, List.dropWhile_cons,
          hsel, hlib, ih]
      | some e =>
        simp [runBatch, processRaw, List.filter_cons, List.takeWhile_cons, List.dropWhile_cons,
          hsel, hlib]
    · simp [runBatch, List.filter_cons, hsel, ih]

/-! Further small helpers used by claim theorems and witnesses. -/

theorem colorclose_degenerate_zero (a b c d : ℝ) : colorclose a b c d 0 0 = 255 := by
  unfold colorclose
  rw [rampZ_degenerate (le_refl 0), if_neg (not_lt.mpr (chromaDist_nonneg a b c d))]
  ring

theorem u8ofReal_255 : u8ofReal (255:ℝ) = 255 := by
  rw [show (255:ℝ) = ((255:ℕ):ℝ) by norm_num]
  exact u8ofReal_natCast 255

theorem pasteBlend_255 {c : ℕ} (h : c ≤ 255) : pasteBlend 255 0 c = c := by
  unfold pasteBlend
  rw [Nat.sub_self, muldiv255_zero_left, muldiv255_255_right h, Nat.zero_add]

/-! The claims. -/

/-- C1: for tolerances `tola < tolb`, the classifier computes the chroma
distance `d` and returns exactly `0` when `d < tola`, exactly
`255 * (d - tola) / (tolb - tola)` when `tola ≤ d < tolb`, and exactly `255`
when `d ≥ tolb`. -/
theorem C1_classifier_ramp (Cb_p Cr_p Cb_key Cr_key tola tolb : ℝ)
    (htol : tola < tolb) :
    (chromaDist Cb_p Cr_p Cb_key Cr_key < tola →
      colorclose Cb_p Cr_p Cb_key Cr_key tola tolb = 0) ∧
    (tola ≤ chromaDist Cb_p Cr_p Cb_key Cr_key →
      chromaDist Cb_p Cr_p Cb_key Cr_key < tolb →
      colorclose Cb_p Cr_p Cb_key Cr_key tola tolb =
        255 * (chromaDist Cb_p Cr_p Cb_key Cr_key - tola) / (tolb - tola)) ∧
    (tolb ≤ chromaDist Cb_p Cr_p Cb_key Cr_key →
      colorclose Cb_p Cr_p Cb_key Cr_key tola tolb = 255) := by
  unfold colorclose rampZ
  refine ⟨fun h => ?_, fun h1 h2 => ?_, fun h => ?_⟩
  · rw [if_pos h]
    ring
  · rw [if_neg (not_lt.mpr h1), if_pos h2]
    ring
  · rw [if_neg (not_lt.mpr (le_trans (le_of_lt htol) h)), if_neg (not_lt.mpr h)]
    ring

/-- Witness for C1: at pixel chrominance (131, 132) against key (128, 128) the
distance is 5, and with tolerances (4, 6) the classifier returns exactly
`255 * (5 - 4) / (6 - 4) = 255 / 2`. -/
theorem C1_classifier_ramp_witness : colorclose 131 132 128 128 4 6 = 255 / 2 := by
  have h := (C1_classifier_ramp 131 132 128 128 4 6 (by norm_num)).2.1
    (by rw [chromaDist_concrete]; norm_num) (by rw [chromaDist_concrete]; norm_num)
  rw [chromaDist_concrete] at h
  rw [h]
  norm_num

/-- C3: for fixed tolerances `tola < tolb` and a fixed key chrominance, the
classifier output is monotone in the chroma distance: if the distance of pixel 1
to the key is at most that of pixel 2, then the opacity of pixel 1 is at most
that of pixel 2. -/
theorem C3_classifier_monotone (Cb1 Cr1 Cb2 Cr2 Cb_key Cr_key tola tolb : ℝ)
    (_htol : tola < tolb)
    (hd : chromaDist Cb1 Cr1 Cb_key Cr_key ≤ chromaDist Cb2 Cr2 Cb_key Cr_key) :
    colorclose Cb1 Cr1 Cb_key Cr_key tola tolb ≤
      colorclose Cb2 Cr2 Cb_key Cr_key tola tolb := by
  unfold colorclose
  exact mul_le_mul_of_nonneg_left (rampZ_mono tola tolb hd) (by norm_num)

/-- Witness for C3: pixel (128, 128) is at distance 0 from the key, pixel
(131, 132) at distance 5; with tolerances (30, 120) the first opacity is
at most the second. -/
theorem C3_classifier_monotone_witness :
    colorclose 128 128 128 128 30 120 ≤ colorclose 131 132 128 128 30 120 :=
  C3_classifier_monotone 128 128 131 132 128 128 30 120 (by norm_num)
    (by rw [chromaDist_self, chromaDist_concrete]; norm_num)

/-- C9: the classifier is total: its output always lies in [0, 255]; the
interpolation branch condition `tola ≤ d < tolb` forces `tola < tolb`, so the
division is never a division by zero; and for degenerate tolerances
`tola ≥ tolb` the classifier degrades to a step function (0 below `tola`,
255 otherwise). -/
theorem C9_classifier_total (Cb_p Cr_p Cb_key Cr_key tola tolb : ℝ) :
    (0 ≤ colorclose Cb_p Cr_p Cb_key Cr_key tola tolb ∧
      colorclose Cb_p Cr_p Cb_key Cr_key tola tolb ≤ 255) ∧
    (tola ≤ chromaDist Cb_p Cr_p Cb_key Cr_key →
      chromaDist Cb_p Cr_p Cb_key Cr_key < tolb → tola < tolb) ∧
    (tolb ≤ tola →
      colorclose Cb_p Cr_p Cb_key Cr_key tola tolb =
        if chromaDist Cb_p Cr_p Cb_key Cr_key < tola then 0 else 255) := by
  refine ⟨⟨colorclose_nonneg _ _ _ _ _ _, colorclose_le_255 _ _ _ _ _ _⟩,
    fun h1 h2 => lt_of_le_of_lt h1 h2, fun h => ?_⟩
  unfold colorclose
  rw [rampZ_degenerate h]
  split_ifs <;> ring

/-- Witness for C9: with the degenerate equal tolerances (3, 3) and distance 5
the classifier returns the step value 255 (and no division by zero occurs). -/
theorem C9_classifier_total_witness : colorclose 131 132 128 128 3 3 = 255 := by
  have h := (C9_classifier_total 131 132 128 128 3 3).2.2 (le_refl 3)
  rw [chromaDist_concrete] at h
  rw [h, if_neg (by norm_num : ¬ (5:ℝ) < 3)]

/-- C5: the inverted mask of src/main.py line 67 equals 255 minus the alpha
mask at every pixel (the expression `255 - 255 * (alphaMask / 255)` collapses
to `255 - alphaMask` in exact arithmetic). -/
theorem C5_inverted_mask (f : Frame) (key : YCbCr) (tol : ℝ × ℝ) (x y : ℕ) :
    invertMaskR f key tol x y = 255 - alphaMaskR f key tol x y :=
  invertMaskR_eq_sub f key tol x y

/-- C6: with `keyColor` omitted the compositor samples the key from the
chroma-converted frame at coordinate (1, 1), and with `tolerance` omitted it
uses (30, 120); the composited output is then computed from those resolved
values. -/
theorem C6_defaults (conv : YCbCr → RGB) (f : Frame) :
    resolveKey f none = f.px 1 1 ∧ resolveTol none = (30, 120) ∧
    (∀ x y, remove_green_screen conv f none none x y =
      cleanedPx conv f (f.px 1 1) (30, 120) x y) :=
  ⟨rfl, rfl, fun _ _ => rfl⟩

/-- C2 (amended): the code performs no tolerance validation. The degenerate
pair (0, 0) is accepted and every pixel is processed with it: since the chroma
distance is never below 0, the mask value at every pixel is exactly 255 (the
classifier degrades to a step function) and stays inside [0, 255] — no
division by zero, NaN or Inf reaches pixel data, but no rejection happens
either. -/
theorem C2_amended_no_validation (f : Frame) (key : YCbCr) (x y : ℕ) :
    alphaMaskR f key (0, 0) x y = 255 ∧
    0 ≤ alphaMaskR f key (0, 0) x y ∧ alphaMaskR f key (0, 0) x y ≤ 255 :=
  ⟨colorclose_degenerate_zero _ _ _ _,
    alphaMaskR_nonneg f key (0, 0) x y, alphaMaskR_le_255 f key (0, 0) x y⟩

/-- Counterexample to C2 as stated: with tolerance (0, 0) on an all-key frame
nothing is rejected — the mask is computed (value 255) and the compositor
produces a definite composited pixel, so pixel processing does happen. -/
theorem C2_counterexample_processed :
    alphaMaskR fKey key0 (0, 0) 0 0 = 255 ∧
    remove_green_screen conv0 fKey (some key0) (some (0, 0)) 0 0 = ⟨0, 0, 0, 255⟩ := by
  have ha : alphaMaskR fKey key0 (0, 0) 0 0 = 255 := colorclose_degenerate_zero _ _ _ _
  have hm : invertU8 fKey key0 (0, 0) 0 0 = 0 := by
    rw [invertU8_eq, ha]
    rw [show ⌈(255:ℝ)⌉ = 255 from by rw [show (255:ℝ) = ((255:ℤ):ℝ) by norm_num, Int.ceil_intCast]]
    rfl
  refine ⟨ha, ?_⟩
  show subPx (origRGBA conv0 fKey 0 0) (spillPx conv0 fKey key0 (0, 0) 0 0) = ⟨0, 0, 0, 255⟩
  simp only [spillPx, origRGBA, conv0, subPx]
  rw [hm]
  decide

/-- C4: on a frame that is the key color at every pixel (distance 0 everywhere)
with the default tolerance, the alpha mask is all zeros and the spill layer is
exactly the flat key-color layer (the pasted `allgreen`, alpha 255). -/
theorem C4_key_colored_frame (conv : YCbCr → RGB) (f : Frame) (key : YCbCr)
    (hconv : (conv key).r ≤ 255 ∧ (conv key).g ≤ 255 ∧ (conv key).b ≤ 255)
    (hf : ∀ x y, f.px x y = key) :
    (∀ x y, alphaMaskR f key (resolveTol none) x y = 0) ∧
    (∀ x y, spillPx conv f key (resolveTol none) x y = allgreenRGBA conv key) := by
  have hmask : ∀ x y : ℕ, alphaMaskR f key (resolveTol none) x y = 0 := by
    intro x y
    unfold alphaMaskR
    rw [hf x y]
    show (255:ℝ) * rampZ (chromaDist key.cb key.cr key.cb key.cr) 30 120 = 0
    rw [chromaDist_self]
    unfold rampZ
    rw [if_pos (by norm_num : (0:ℝ) < 30)]
    ring
  refine ⟨hmask, fun x y => ?_⟩
  have hm : invertU8 f key (resolveTol none) x y = 255 := by
    unfold invertU8
    rw [invertMaskR_eq_sub, hmask x y, sub_zero]
    exact u8ofReal_255
  obtain ⟨h1, h2, h3⟩ := hconv
  simp only [spillPx, allgreenRGBA]
  rw [hm, pasteBlend_255 h1, pasteBlend_255 h2, pasteBlend_255 h3,
    pasteBlend_255 (le_refl 255)]

/-- Witness for C4 on the concrete all-key frame `fKey` with key (150,128,128). -/
theorem C4_key_colored_frame_witness :
    alphaMaskR fKey key0 (resolveTol none) 0 0 = 0 ∧
    spillPx conv0 fKey key0 (resolveTol none) 0 0 = allgreenRGBA conv0 key0 := by
  have h := C4_key_colored_frame conv0 fKey key0
    ⟨by decide, by decide, by decide⟩ (fun _ _ => rfl)
  exact ⟨h.1 0 0, h.2 0 0⟩

/-- When the library raises on no selected frame, the loop completes with no
error and emits exactly the selected indices, in order. -/
theorem runBatch_wf_characterization (lib : RawFrame → Option String)
    (rc : ℕ → ℕ → ℕ → YCbCr) (conv : YCbCr → RGB)
    (l : List (ℕ × RawFrame)) (flag : Bool) (h : ∀ p ∈ l, lib p.2 = none) :
    (runBatch lib rc conv l flag).1.map Prod.fst
        = (l.map Prod.fst).filter (fun i => flag || i % 5 == 0) ∧
    (runBatch lib rc conv l flag).2 = none := by
  have hb : ∀ p ∈ (l.filter fun p => flag || p.1 % 5 == 0),
      (fun p : ℕ × RawFrame => (lib p.2).isNone) p = true := by
    intro p hp
    have := h p (List.mem_of_mem_filter hp)
    simp [this]
  rw [runBatch_eq]
  constructor
  · rw [takeWhile_all hb, List.map_map]
    have hcomp : (Prod.fst ∘ fun p : ℕ × RawFrame => (p.1, composited rc conv p.2))
        = Prod.fst := by
      funext p
      rfl
    rw [hcomp]
    exact map_fst_filter_fst (fun i => flag || i % 5 == 0) l
  · rw [dropWhile_all hb]
    rfl

/-- C7: for any library behavior that raises on none of the frames,
`process_all_frames = False` emits exactly the frames at indices divisible by
5, and `process_all_frames = True` emits every frame; in both cases the batch
completes without error. -/
theorem C7_decimation (lib : RawFrame → Option String) (rc : ℕ → ℕ → ℕ → YCbCr)
    (conv : YCbCr → RGB)
    (frames : List RawFrame) (h : ∀ r ∈ frames, lib r = none) :
    ((remove_green_screen_from_video lib rc conv frames false).1.map Prod.fst
        = (List.range frames.length).filter (fun i => i % 5 == 0)) ∧
    ((remove_green_screen_from_video lib rc conv frames true).1.map Prod.fst
        = List.range frames.length) ∧
    (remove_green_screen_from_video lib rc conv frames false).2 = none ∧
    (remove_green_screen_from_video lib rc conv frames true).2 = none := by
  have he : ∀ p ∈ frames.enum, lib p.2 = none := by
    intro p hp
    exact h p.2 (snd_mem_of_mem_enumFrom hp)
  have hfst : frames.enum.map Prod.fst = List.range frames.length := by
    rw [List.enum_eq_enumFrom, List.enumFrom_map_fst, List.range_eq_range']
  obtain ⟨h1, h2⟩ := runBatch_wf_characterization lib rc conv frames.enum false he
  obtain ⟨h3, h4⟩ := runBatch_wf_characterization lib rc conv frames.enum true he
  refine ⟨?_, ?_, h2, h4⟩
  · show (runBatch lib rc conv frames.enum false).1.map Prod.fst = _
    rw [h1, hfst]
    simp
  · show (runBatch lib rc conv frames.enum true).1.map Prod.fst = _
    rw [h3, hfst]
    simp

/-- Witness for C7: 12 wellformed 2x2 RGB frames (none of which the library
raises on) with `process_all_frames = False` emit exactly indices 0, 5, 10;
with `True`, all 12 indices. -/
theorem C7_decimation_witness :
    ((remove_green_screen_from_video libRaises5 rc0 conv0 frames12 false).1.map Prod.fst
        = [0, 5, 10]) ∧
    ((remove_green_screen_from_video libRaises5 rc0 conv0 frames12 true).1.map Prod.fst
        = List.range 12) := by
  have hwf : ∀ r ∈ frames12, libRaises5 r = none := by
    intro r hr
    have hg : r = rawGood := List.eq_of_mem_replicate hr
    rw [hg]
    rfl
  have h := C7_decimation libRaises5 rc0 conv0 frames12 hwf
  refine ⟨?_, ?_⟩
  · rw [h.1]
    decide
  · rw [h.2.1]
    decide

/-- C8 (amended): the driver has no error handling — a malformed frame whose
processing raises is not caught and skipped. For any library-raising behavior,
the driver emits exactly the selected frames that process successfully before
the first selected raising frame, and then the uncaught exception aborts the
batch at that frame (the result carries its index and message); later frames
are never processed. When no selected frame raises the batch completes.
(Which malformed layouts actually raise is library behavior: a 5-channel frame
raises TypeError in `Image.fromarray`, while a 4-channel frame is converted
and processed normally.) -/
theorem C8_amended_abort (lib : RawFrame → Option String) (rc : ℕ → ℕ → ℕ → YCbCr)
    (conv : YCbCr → RGB) (frames : List RawFrame) (flag : Bool) :
    remove_green_screen_from_video lib rc conv frames flag =
      (((frames.enum.filter fun p => flag || p.1 % 5 == 0).takeWhile
          fun p => (lib p.2).isNone).map (fun p => (p.1, composited rc conv p.2)),
       ((frames.enum.filter fun p => flag || p.1 % 5 == 0).dropWhile
          fun p => (lib p.2).isNone).head?.map (fun p => (p.1, (lib p.2).getD ""))) :=
  runBatch_eq lib rc conv frames.enum flag

/-- Counterexample to C8 as stated: frames (2x2 RGB, 2x2 5-channel, 2x2 RGB)
with `process_all_frames = True` — the middle frame raises TypeError in
`Image.fromarray` (no typemap entry for 5 channels) and nothing catches it, so
the program emits only index 0 and aborts at index 1; it does not skip the
malformed frame and continue with frame 2 as the claim asserts. -/
theorem C8_counterexample_aborts :
    ((remove_green_screen_from_video libRaises5 rc0 conv0 [rawGood, rawBad5, rawGood] true).1.map
        Prod.fst = [0]) ∧
    ((remove_green_screen_from_video libRaises5 rc0 conv0 [rawGood, rawBad5, rawGood] true).2.map
        Prod.fst = some 1) := by
  show ((runBatch libRaises5 rc0 conv0 ([rawGood, rawBad5, rawGood].enum) true).1.map
      Prod.fst = [0]) ∧
    ((runBatch libRaises5 rc0 conv0 ([rawGood, rawBad5, rawGood].enum) true).2.map
      Prod.fst = some 1)
  rw [runBatch_eq]
  simp [List.enum, List.enumFrom, List.filter_cons, List.takeWhile_cons, List.dropWhile_cons,
    rawGood, rawBad5, libRaises5]

/-- C10 (amended): the alpha channel of the spill layer equals the (uint8)
Inverted Mask exactly, and the alpha channel of the composited output equals
`255 - InvertedMask` exactly; this is the ceiling of the real alpha-mask
value, so it equals the Alpha Mask wherever that value is an integer (in
particular fully background-classified pixels come out transparent, alpha 0,
and fully foreground pixels opaque) but exceeds the truncated uint8 Alpha Mask
by one at fractional values. -/
theorem C10_amended_output_alpha (conv : YCbCr → RGB) (f : Frame) (key : YCbCr)
    (tol : ℝ × ℝ) (x y : ℕ) :
    (spillPx conv f key tol x y).a = invertU8 f key tol x y ∧
    (cleanedPx conv f key tol x y).a = 255 - invertU8 f key tol x y ∧
    ((cleanedPx conv f key tol x y).a : ℤ) = ⌈alphaMaskR f key tol x y⌉ :=
  ⟨spillPx_alpha conv f key tol x y, cleanedPx_alpha conv f key tol x y,
    cleanedPx_alpha_eq_ceil conv f key tol x y⟩

/-- Counterexample to C10 as stated: at chroma distance 5 with tolerances
(4, 6) the alpha-mask value is 127.5; the alpha channel of the composited output is
128, which equals neither the real mask value nor its uint8 image (127). -/
theorem C10_counterexample_rounding :
    ((cleanedPx conv0 f5 key0 (4, 6) 0 0).a : ℝ) ≠ alphaMaskR f5 key0 (4, 6) 0 0 ∧
    (cleanedPx conv0 f5 key0 (4, 6) 0 0).a ≠ alphaU8 f5 key0 (4, 6) 0 0 := by
  have ha : alphaMaskR f5 key0 (4, 6) 0 0 = 255 / 2 := by
    unfold alphaMaskR
    simp only [f5, key0]
    push_cast
    unfold colorclose
    rw [chromaDist_concrete]
    unfold rampZ
    rw [if_neg (by norm_num), if_pos (by norm_num)]
    norm_num
  have hceil : ((cleanedPx conv0 f5 key0 (4, 6) 0 0).a : ℤ) = 128 := by
    rw [cleanedPx_alpha_eq_ceil, ha]
    rw [Int.ceil_eq_iff]
    constructor <;> norm_num
  have hna : (cleanedPx conv0 f5 key0 (4, 6) 0 0).a = 128 := by
    exact_mod_cast hceil
  have hu8 : alphaU8 f5 key0 (4, 6) 0 0 = 127 := by
    unfold alphaU8 u8ofReal
    rw [ha]
    rw [show ⌊(255/2:ℝ)⌋ = 127 from by
      rw [Int.floor_eq_iff]
      constructor <;> norm_num]
    rfl
  constructor
  · rw [ha, hna]
    norm_num
  · rw [hna, hu8]
    decide
